import Mathlib

/-!
Verification of the pylz repository: a byte-level Lempel-Ziv codec
(src/lz.py), its integer width codec (src/plz/ints.py) and the coroutine
pipeline utilities (src/cr.py).

Bytes are modelled as natural numbers (Python guarantees values in 0..255
at the boundaries via the bytes/bytearray types; theorems carry the bound
as a hypothesis where it matters).  Python dicts are modelled as
association lists with insertion at the head; the codec only ever inserts
fresh keys, so first-match lookup agrees with dict lookup.  A Python
KeyError / ValueError is modelled by an Option-valued function returning
none.

Width functions.  ints.py computes ceil(log(val + 1, 2)) in IEEE binary64
floating point.  The functions bitwidth and bytewidth below are the exact
integer value of that formula — the width the spec defines and the module
asserts at small values — and the codec model uses them throughout.  The
float pipeline is not modelled beyond its first step, the conversion of
val + 1 to a double (roundDouble below), because the remaining steps
depend on the platform's libm; that first step already separates the
program from the exact formula: from val = 2^53 on the conversion
identifies distinct arguments (for example the doubles of 2^56 and
2^56 + 1 coincide), so whatever the libm returns, the program computes
equal widths where the exact formula changes value, under-sizing pointer
fields at block ids near 2^56 and silently truncating pointers there.
The theorems attached to the width-dependent claims exhibit this
divergence at concrete inputs; claims that do not depend on width values
are proved of the model as usual.
-/

namespace PyLZ

/-- The exact integer value of ints.bitwidth's formula
ceil(log(val + 1, 2)): the number of bits needed for val.  The program
evaluates the formula in floating point and matches this value only while
val is small (the module's assert suite pins the values up to 19 bits);
see roundDouble for where the float computation provably departs.
Structural fuel recursion on the bit decomposition, so the kernel can
evaluate it; the fuel argument is sufficient whenever it is at least val
(proved in bitwidthAux_eq below). -/
def bitwidthAux : Nat → Nat → Nat
  | _, 0 => 0
  | 0, _ + 1 => 0
  | fuel + 1, n + 1 => bitwidthAux fuel ((n + 1) / 2) + 1

/-- Exact integer value of ints.bitwidth(val) = ceil(log(val + 1, 2)). -/
def bitwidth (val : Nat) : Nat := bitwidthAux val val

/-- Exact integer value of ints.bytewidth(val) = ceil(bitwidth(val) / 8):
the minimal byte width of val, as the spec defines it.  The program's
float evaluation matches it only while val is small. -/
def bytewidth (val : Nat) : Nat := (bitwidth val + 7) / 8

/-- IEEE-754 binary64 (round-to-nearest, ties-to-even) value of a natural
number: the first step of ints.bitwidth's float evaluation, CPython's
conversion of the int val + 1 to a double before math.log sees it.
Arguments up to 2^53 are exact; above that the value is rounded to 53
significant bits, so distinct arguments collapse to the same double (for
example 2^56 + c for c = 0..8 all become 2^56) and every later step of
the float pipeline — whatever the libm's log returns — computes equal
widths for them.  Overflow to infinity (at 2^1024) is irrelevant at the
values used here. -/
def roundDouble (n : Nat) : Nat :=
  if n ≤ 2 ^ 53 then n
  else
    let e := bitwidth n - 53
    let q := n / 2 ^ e
    let r := n % 2 ^ e
    let half := 2 ^ (e - 1)
    if r < half then q * 2 ^ e
    else if half < r then (q + 1) * 2 ^ e
    else if q % 2 = 0 then q * 2 ^ e
    else (q + 1) * 2 ^ e

/-- The byte sequence built by Python ints.tobytes:
bytes(255 & (val >> 8 * i) for i in reversed(range(w))). -/
def beBytes (val w : Nat) : List Nat :=
  (List.range w).reverse.map fun i => 255 &&& (val >>> (8 * i))

/-- Python ints.tobytes(val, length): big-endian bytes of val, of width
bytewidth(val) when length is None, of width length otherwise; raises
ValueError (modelled as none) when length < bytewidth(val). -/
def tobytes (val : Nat) (length : Option Nat) : Option (List Nat) :=
  let w := bytewidth val
  match length with
  | none => some (beBytes val w)
  | some l => if l < w then none else some (beBytes val l)

/-- Python ints.frombytes: n = 0; for i, b in enumerate(reversed(byt)):
n |= b << 8 * i. -/
def frombytes (byt : List Nat) : Nat :=
  (byt.reverse.enum).foldl (fun n p => n ||| (p.2 <<< (8 * p.1))) 0

/-- Little-endian value of a byte list, base 256; proof-side companion of
frombytes. -/
def valLE : List Nat → Nat
  | [] => 0
  | b :: rest => b + 256 * valLE rest

/-- Python dict lookup, on a dict modelled as an association list with the
newest binding first. -/
def dictFind {α β : Type} [DecidableEq α] : List (α × β) → α → Option β
  | [], _ => none
  | (k, v) :: t, key => if k = key then some v else dictFind t key

/-- Result of running lz.encode to end of stream: the full blocks sent, the
optional trailing pointer-only block sent from the finally clause, and the
final table and block counter. -/
structure EncResult where
  blocks : List (List Nat)
  trailing : Option (List Nat)
  table : List (List Nat × Nat)
  nextid : Nat
deriving DecidableEq

/-- Python lz.encode, one step per consumed byte.  State: table (known
chunk to blockid), blockid (next id), chunkm (chunk accumulated so far).
End of input models closing the coroutine: the finally clause sends the
pointer of a leftover known chunk as a block with no new-byte.  The none
results model a KeyError or ValueError escaping the coroutine (unreachable
from the initial state, as the theorems below show). -/
def encodeLoop : List Nat → List (List Nat × Nat) → Nat → List Nat → Option EncResult
  | [], table, blockid, chunkm =>
    if chunkm = [] then
      some ⟨[], none, table, blockid⟩
    else
      match dictFind table chunkm with
      | none => none
      | some pointer =>
        match tobytes pointer (some (bytewidth blockid)) with
        | none => none
        | some pointerb => some ⟨[], some pointerb, table, blockid⟩
  | b :: rest, table, blockid, chunkm =>
    let chunk := chunkm ++ [b]
    match dictFind table chunk with
    | some _ => encodeLoop rest table blockid chunk
    | none =>
      let table' := (chunk, blockid) :: table
      let pfx := chunk.dropLast
      let newbyte := chunk.getLastD 0
      match (if pfx = [] then some blockid else dictFind table' pfx) with
      | none => none
      | some pointer =>
        match tobytes pointer (some (bytewidth blockid)) with
        | none => none
        | some pointerb =>
          match encodeLoop rest table' (blockid + 1) [] with
          | none => none
          | some r => some ⟨(pointerb ++ [newbyte]) :: r.blocks, r.trailing, r.table, r.nextid⟩

/-- Run lz.encode from its initial state on a whole input stream. -/
def encode (input : List Nat) : Option EncResult := encodeLoop input [] 0 []

/-- The byte stream an encoder run sends downstream: the full blocks in
order followed by the trailing pointer-only block, if any. -/
def EncResult.out (r : EncResult) : List Nat :=
  r.blocks.flatten ++ (r.trailing.getD [])

/-- Concatenated encoder output for an input stream. -/
def encodeBytes (input : List Nat) : Option (List Nat) :=
  (encode input).map EncResult.out

/-- Result of running lz.decode to end of stream: the chunks sent for full
blocks, the chunk re-sent for the optional trailing pointer-only block, and
the final table and block counter. -/
structure DecResult where
  chunks : List (List Nat)
  trailing : Option (List Nat)
  table : List (Nat × List Nat)
  nextid : Nat
deriving DecidableEq

/-- Python lz.decode.  For block id blockid it accumulates
bytewidth(blockid) + 1 bytes, splits them into pointer bytes and new-byte,
resolves the pointer (its own id means an empty known-prefix), records and
sends the chunk.  End of input models closing the coroutine: a partial
block is decoded by the finally clause as a pointer with no new-byte and
the referenced chunk is re-sent.  The none results model a KeyError
(UnknownReferenceError: pointer never assigned).  The fuel argument makes
the recursion structural; input.length suffices since every block consumes
at least one byte. -/
def decodeLoop : Nat → List (Nat × List Nat) → Nat → List Nat → Option DecResult
  | _, table, blockid, [] => some ⟨[], none, table, blockid⟩
  | 0, _, _, _ :: _ => none
  | fuel + 1, table, blockid, b :: rest =>
    let input := b :: rest
    let w := bytewidth blockid + 1
    if input.length < w then
      match dictFind table (frombytes input) with
      | none => none
      | some chunk => some ⟨[], some chunk, table, blockid⟩
    else
      let block := input.take w
      let pointer := frombytes block.dropLast
      match (if pointer = blockid then some [] else dictFind table pointer) with
      | none => none
      | some pfx =>
        let chunk := pfx ++ [block.getLastD 0]
        match decodeLoop fuel ((blockid, chunk) :: table) (blockid + 1) (input.drop w) with
        | none => none
        | some r => some ⟨chunk :: r.chunks, r.trailing, r.table, r.nextid⟩

/-- Run lz.decode from its initial state on a whole input stream. -/
def decode (input : List Nat) : Option DecResult :=
  decodeLoop input.length [] 0 input

/-- The byte stream a decoder run sends downstream. -/
def DecResult.out (r : DecResult) : List Nat :=
  r.chunks.flatten ++ (r.trailing.getD [])

/-- Concatenated decoder output for an input stream. -/
def decodeBytes (input : List Nat) : Option (List Nat) :=
  (decode input).map DecResult.out

/-- Outcome of closing the cr.trickle coroutine. -/
inductive CloseOutcome where
  | clean : CloseOutcome
  | unsent : List Nat → CloseOutcome
  | nameError : CloseOutcome
deriving DecidableEq

/-- The finally clause of cr.trickle: rest = seq[i + 1:]; if rest: raise
UnsentError(rest).  The state is the last chunk bound to seq and the last
index bound to i; none models a Python local that was never bound, reading
which raises NameError (UnboundLocalError). -/
def trickleClose (seq : Option (List Nat)) (i : Option Nat) : CloseOutcome :=
  match seq with
  | none => CloseOutcome.nameError
  | some s =>
    match i with
    | none => CloseOutcome.nameError
    | some iv =>
      let rest := s.drop (iv + 1)
      if rest = [] then CloseOutcome.clean else CloseOutcome.unsent rest

/-- Receiving one chunk in cr.trickle's main loop: seq is rebound to the
chunk and the for loop, run to completion, leaves i at the chunk's last
index (i keeps its previous binding when the chunk is empty, since the
loop body never runs). -/
def trickleReceive (st : Option (List Nat) × Option Nat) (s : List Nat) :
    Option (List Nat) × Option Nat :=
  (some s, if s.isEmpty then st.2 else some (s.length - 1))

/-- State of cr.trickle when it is first suspended: nothing received, seq
and i unbound. -/
def trickleStart : Option (List Nat) × Option Nat := (none, none)

/-- State of cr.trickle after receiving and fully forwarding a sequence of
chunks. -/
def trickleRunState (chunks : List (List Nat)) : Option (List Nat) × Option Nat :=
  chunks.foldl trickleReceive trickleStart

/-- The encoder table (known chunk to id) and the decoder table (id to
chunk) are mirror images, and the decoder table holds exactly the ids
below n. -/
def Mirror (te : List (List Nat × Nat)) (td : List (Nat × List Nat)) (n : Nat) : Prop :=
  (∀ c i, dictFind te c = some i ↔ dictFind td i = some c) ∧
  (∀ i, i < n ↔ (dictFind td i).isSome)

/-- The fuel recursion computes the exact ceiling log: bitwidthAux fuel n
is the ceiling of log2(n + 1) whenever fuel is at least n. -/
theorem bitwidthAux_eq : ∀ fuel n, n ≤ fuel → bitwidthAux fuel n = Nat.clog 2 (n + 1) := by
  intro fuel
  induction fuel with
  | zero =>
    intro n hn
    interval_cases n
    simp [bitwidthAux, Nat.clog_one_right]
  | succ fuel ih =>
    intro n hn
    cases n with
    | zero => simp [bitwidthAux, Nat.clog_one_right]
    | succ n =>
      rw [show bitwidthAux (fuel + 1) (n + 1) = bitwidthAux fuel ((n + 1) / 2) + 1 from rfl,
        ih ((n + 1) / 2) (by omega)]
      symm
      rw [Nat.clog_of_two_le (by norm_num) (by omega)]
      congr 2
      omega

/-- Python bitwidth computes the exact integer ceil(log2(val + 1)). -/
theorem bitwidth_eq_clog (n : Nat) : bitwidth n = Nat.clog 2 (n + 1) :=
  bitwidthAux_eq n n le_rfl

/-- Galois characterisation of bitwidth. -/
theorem bitwidth_le_iff (n m : Nat) : bitwidth n ≤ m ↔ n + 1 ≤ 2 ^ m := by
  rw [bitwidth_eq_clog]
  exact (Nat.le_pow_iff_clog_le one_lt_two).symm

/-- Galois characterisation of bytewidth. -/
theorem bytewidth_le_iff (n m : Nat) : bytewidth n ≤ m ↔ n + 1 ≤ 2 ^ (8 * m) := by
  have h : bytewidth n ≤ m ↔ bitwidth n ≤ 8 * m := by
    rw [bytewidth]; omega
  rw [h, bitwidth_le_iff]

/-- Every value fits in bytewidth-many bytes. -/
theorem lt_pow_bytewidth (n : Nat) : n < 2 ^ (8 * bytewidth n) := by
  have := (bytewidth_le_iff n (bytewidth n)).mp le_rfl
  omega

/-- bytewidth is monotone. -/
theorem bytewidth_mono {m n : Nat} (h : m ≤ n) : bytewidth m ≤ bytewidth n := by
  rw [bytewidth_le_iff]
  have := lt_pow_bytewidth n
  omega

/-- Bitwise or of a small number with a shifted number is addition. -/
theorem lor_shiftLeft_eq_add {a : Nat} (b k : Nat) (h : a < 2 ^ k) :
    a ||| (b <<< k) = a + b * 2 ^ k := by
  apply Nat.eq_of_testBit_eq
  intro i
  rw [Nat.testBit_lor, Nat.testBit_shiftLeft]
  rcases lt_or_ge i k with hik | hik
  · have h2 := Nat.testBit_mod_two_pow (a + b * 2 ^ k) k i
    have h3 := Nat.testBit_mod_two_pow a k i
    rw [Nat.add_mul_mod_self_right] at h2
    rw [decide_eq_true hik, Bool.true_and] at h2 h3
    rw [decide_eq_false (Nat.not_le.mpr hik), Bool.false_and, Bool.or_false]
    exact h3.symm.trans h2
  · have ha : Nat.testBit a i = false :=
      Nat.testBit_lt_two_pow (lt_of_lt_of_le h (Nat.pow_le_pow_right (by norm_num) hik))
    obtain ⟨d, rfl⟩ : ∃ d, i = k + d := ⟨i - k, by omega⟩
    have hdiv : (a + b * 2 ^ k) / 2 ^ (k + d) = b / 2 ^ d := by
      rw [Nat.pow_add, ← Nat.div_div_eq_div_mul]
      congr 1
      rw [Nat.add_comm, Nat.mul_comm, Nat.mul_add_div (Nat.two_pow_pos k),
        Nat.div_eq_of_lt h, Nat.add_zero]
    have hr : (a + b * 2 ^ k).testBit (k + d) = b.testBit d := by
      rw [Nat.testBit_to_div_mod, hdiv, Nat.testBit_to_div_mod]
    rw [hr, ha, decide_eq_true hik, Bool.true_and, Bool.false_or,
      Nat.add_sub_cancel_left]

/-- Folding the or-shift accumulation over bytes starting at position j
adds the little-endian value shifted into position. -/
theorem foldl_lor_enumFrom :
    ∀ (bs : List Nat) (j a : Nat), (∀ b ∈ bs, b < 256) → a < 2 ^ (8 * j) →
      (List.enumFrom j bs).foldl (fun n p => n ||| (p.2 <<< (8 * p.1))) a =
        a + valLE bs * 2 ^ (8 * j) := by
  intro bs
  induction bs with
  | nil => intro j a _ _; simp [valLE]
  | cons b rest ih =>
    intro j a hb ha
    have hstep : a ||| (b <<< (8 * j)) = a + b * 2 ^ (8 * j) :=
      lor_shiftLeft_eq_add b (8 * j) ha
    have hblt : b < 256 := hb b (by simp)
    have hpow : 2 ^ (8 * (j + 1)) = 256 * 2 ^ (8 * j) := by
      rw [show 8 * (j + 1) = 8 + 8 * j by ring, Nat.pow_add]
    have ha' : a + b * 2 ^ (8 * j) < 2 ^ (8 * (j + 1)) := by
      rw [hpow]
      nlinarith
    rw [List.enumFrom_cons, List.foldl_cons, hstep,
      ih (j + 1) _ (fun x hx => hb x (by simp [hx])) ha', valLE, hpow]
    ring

/-- frombytes agrees with the little-endian value of the reversed list on
genuine byte values. -/
theorem frombytes_eq_valLE (byt : List Nat) (h : ∀ b ∈ byt, b < 256) :
    frombytes byt = valLE byt.reverse := by
  have h' : ∀ b ∈ byt.reverse, b < 256 := fun b hb => h b (List.mem_reverse.mp hb)
  have := foldl_lor_enumFrom byt.reverse 0 0 h' (by simp)
  simpa [frombytes, List.enum] using this

/-- Every entry produced by beBytes is a byte. -/
theorem beBytes_lt (val w : Nat) : ∀ b ∈ beBytes val w, b < 256 := by
  intro b hb
  simp only [beBytes, List.mem_map] at hb
  obtain ⟨i, _, rfl⟩ := hb
  rw [Nat.and_comm, show (255 : Nat) = 2 ^ 8 - 1 by norm_num,
    Nat.and_pow_two_sub_one_eq_mod]
  exact Nat.mod_lt _ (by norm_num)

/-- beBytes produces exactly w bytes. -/
theorem beBytes_length (val w : Nat) : (beBytes val w).length = w := by
  simp [beBytes]

/-- Little-endian value of the byte expansion, general position. -/
theorem valLE_range' (val : Nat) :
    ∀ w j, valLE ((List.range' j w).map fun i => (val >>> (8 * i)) % 256) =
      (val >>> (8 * j)) % 2 ^ (8 * w) := by
  intro w
  induction w with
  | zero => intro j; simp [valLE, Nat.mod_one]
  | succ w ih =>
    intro j
    rw [List.range'_succ, List.map_cons, valLE, ih (j + 1)]
    have hsh : val >>> (8 * (j + 1)) = (val >>> (8 * j)) >>> 8 := by
      rw [show 8 * (j + 1) = 8 * j + 8 by ring, Nat.shiftRight_add]
    rw [hsh]
    have h8 : (val >>> (8 * j)) >>> 8 = (val >>> (8 * j)) / 256 := by
      rw [Nat.shiftRight_eq_div_pow]
    rw [h8]
    have hpow : 2 ^ (8 * (w + 1)) = 256 * 2 ^ (8 * w) := by
      rw [show 8 * (w + 1) = 8 + 8 * w by ring, Nat.pow_add]
    rw [hpow, Nat.mod_mul]

/-- frombytes of the big-endian expansion recovers the value modulo the
width. -/
theorem frombytes_beBytes (val w : Nat) :
    frombytes (beBytes val w) = val % 2 ^ (8 * w) := by
  rw [frombytes_eq_valLE _ (beBytes_lt val w)]
  have hfun : (fun i => 255 &&& (val >>> (8 * i))) = fun i => (val >>> (8 * i)) % 256 := by
    funext i
    rw [Nat.and_comm, show (255 : Nat) = 2 ^ 8 - 1 by norm_num,
      Nat.and_pow_two_sub_one_eq_mod]
  rw [beBytes, hfun, ← List.map_reverse, List.reverse_reverse, List.range_eq_range',
    valLE_range']
  simp

/-- frombytes of the big-endian expansion of a value that fits recovers the
value exactly. -/
theorem frombytes_beBytes_of_lt {p w : Nat} (h : p < 2 ^ (8 * w)) :
    frombytes (beBytes p w) = p := by
  rw [frombytes_beBytes, Nat.mod_eq_of_lt h]

/-- tobytes with an explicit sufficient width succeeds and yields the
big-endian expansion at that width. -/
theorem tobytes_some {val w : Nat} (h : bytewidth val ≤ w) :
    tobytes val (some w) = some (beBytes val w) := by
  simp [tobytes, Nat.not_lt.mpr h]

/-- Nonzero values need at least one byte. -/
theorem bytewidth_pos {n : Nat} (h : 1 ≤ n) : 1 ≤ bytewidth n := by
  by_contra hb
  have := (bytewidth_le_iff n 0).mp (by omega)
  simp at this
  omega

/-- Unfolding lemma for dictFind on a nonempty dict. -/
theorem dictFind_cons {α β : Type} [DecidableEq α] (k : α) (v : β)
    (t : List (α × β)) (key : α) :
    dictFind ((k, v) :: t) key = if k = key then some v else dictFind t key := rfl

/-- A table entry found under a mirror invariant carries an id below the
counter. -/
theorem mirror_lt {te td n} (hM : Mirror te td n) {c : List Nat} {i : Nat}
    (h : dictFind te c = some i) : i < n := by
  apply (hM.2 i).mpr
  rw [(hM.1 c i).mp h]
  rfl

/-- Inserting a fresh chunk on the encoder side and its id on the decoder
side preserves the mirror invariant. -/
theorem mirror_insert {te td n} {chunk : List Nat} (hM : Mirror te td n)
    (hnew : dictFind te chunk = none) :
    Mirror ((chunk, n) :: te) ((n, chunk) :: td) (n + 1) := by
  obtain ⟨h1, h2⟩ := hM
  constructor
  · intro c i
    rw [dictFind_cons, dictFind_cons]
    by_cases hc : chunk = c
    · subst hc
      rw [if_pos rfl]
      constructor
      · intro h
        obtain rfl : n = i := by injection h
        rw [if_pos rfl]
      · intro h
        by_cases hn : n = i
        · subst hn; rfl
        · rw [if_neg hn] at h
          rw [(h1 chunk i).mpr h] at hnew
          exact absurd hnew (by simp)
    · rw [if_neg hc]
      constructor
      · intro h
        have hlt : i < n := (h2 i).mpr (by rw [(h1 c i).mp h]; rfl)
        rw [if_neg (by omega)]
        exact (h1 c i).mp h
      · intro h
        by_cases hn : n = i
        · rw [if_pos hn] at h
          exact absurd (by injection h) (fun hx => hc hx)
        · rw [if_neg hn] at h
          exact (h1 c i).mpr h
  · intro i
    rw [dictFind_cons]
    by_cases hn : n = i
    · subst hn
      simp
    · rw [if_neg hn]
      rw [← h2 i]
      omega

/-- encodeLoop at end of input with an empty buffer: no trailing block. -/
theorem encodeLoop_nil_empty (te : List (List Nat × Nat)) (n : Nat) :
    encodeLoop [] te n [] = some ⟨[], none, te, n⟩ := by
  simp [encodeLoop]

/-- encodeLoop at end of input with a leftover known chunk: it sends the
chunk's pointer as a trailing block with no new-byte. -/
theorem encodeLoop_nil_leftover {te n cm p pb} (hcm : cm ≠ [])
    (hfind : dictFind te cm = some p)
    (htb : tobytes p (some (bytewidth n)) = some pb) :
    encodeLoop [] te n cm = some ⟨[], some pb, te, n⟩ := by
  simp [encodeLoop, hcm, hfind, htb]

/-- encodeLoop on a byte extending the buffer to a known chunk: keep
accumulating, nothing sent. -/
theorem encodeLoop_cons_known {te : List (List Nat × Nat)} {n : Nat}
    {cm : List Nat} {b : Nat} {j : Nat} (rest : List Nat)
    (hfind : dictFind te (cm ++ [b]) = some j) :
    encodeLoop (b :: rest) te n cm = encodeLoop rest te n (cm ++ [b]) := by
  simp [encodeLoop, hfind]

/-- encodeLoop on a byte completing an unfamiliar chunk: record it, send
pointer plus new-byte, reset the buffer. -/
theorem encodeLoop_cons_new {te n cm b rest pointer pb r}
    (hfind : dictFind te (cm ++ [b]) = none)
    (hptr : (if cm = [] then some n else dictFind ((cm ++ [b], n) :: te) cm) = some pointer)
    (htb : tobytes pointer (some (bytewidth n)) = some pb)
    (hrec : encodeLoop rest ((cm ++ [b], n) :: te) (n + 1) [] = some r) :
    encodeLoop (b :: rest) te n cm =
      some ⟨(pb ++ [b]) :: r.blocks, r.trailing, r.table, r.nextid⟩ := by
  simp only [encodeLoop, hfind, List.dropLast_concat, List.getLastD_concat, hptr, htb, hrec]

/-- decodeLoop at end of input between blocks: nothing left to flush. -/
theorem decodeLoop_nil (fuel : Nat) (td : List (Nat × List Nat)) (n : Nat) :
    decodeLoop fuel td n [] = some ⟨[], none, td, n⟩ := by
  cases fuel <;> rfl

/-- decodeLoop when the stream ends inside a block: the partial block is a
lone pointer and the referenced chunk is re-sent. -/
theorem decodeLoop_trailing {fuel td n input chunk} (hne : input ≠ [])
    (hlen : input.length < bytewidth n + 1)
    (hfind : dictFind td (frombytes input) = some chunk) :
    decodeLoop (fuel + 1) td n input = some ⟨[], some chunk, td, n⟩ := by
  obtain ⟨b, rest, rfl⟩ := List.exists_cons_of_ne_nil hne
  simp only [decodeLoop, if_pos hlen, hfind]

/-- decodeLoop consuming one full block. -/
theorem decodeLoop_step {fuel td n input pfx d}
    (hlen : bytewidth n + 1 ≤ input.length)
    (hpfx : (if frombytes ((input.take (bytewidth n + 1)).dropLast) = n then some []
        else dictFind td (frombytes ((input.take (bytewidth n + 1)).dropLast))) = some pfx)
    (hrec : decodeLoop fuel ((n, pfx ++ [(input.take (bytewidth n + 1)).getLastD 0]) :: td)
        (n + 1) (input.drop (bytewidth n + 1)) = some d) :
    decodeLoop (fuel + 1) td n input =
      some ⟨(pfx ++ [(input.take (bytewidth n + 1)).getLastD 0]) :: d.chunks,
        d.trailing, d.table, d.nextid⟩ := by
  obtain ⟨b, rest, rfl⟩ := List.exists_cons_of_ne_nil
    (show (input : List Nat) ≠ [] by intro h; rw [h] at hlen; simp at hlen)
  simp only [decodeLoop, if_neg (Nat.not_lt.mpr hlen), hpfx, hrec]

/-- decodeLoop consuming one full block given as an explicit prefix of the
stream. -/
theorem decodeLoop_block {fuel td n pfx d} {blk tail : List Nat}
    (hblk : blk.length = bytewidth n + 1)
    (hpfx : (if frombytes blk.dropLast = n then some []
        else dictFind td (frombytes blk.dropLast)) = some pfx)
    (hrec : decodeLoop fuel ((n, pfx ++ [blk.getLastD 0]) :: td) (n + 1) tail = some d) :
    decodeLoop (fuel + 1) td n (blk ++ tail) =
      some ⟨(pfx ++ [blk.getLastD 0]) :: d.chunks, d.trailing, d.table, d.nextid⟩ := by
  have h1 : bytewidth n + 1 ≤ (blk ++ tail).length := by
    rw [List.length_append, hblk]; omega
  have htake : (blk ++ tail).take (bytewidth n + 1) = blk := by
    rw [← hblk]; exact List.take_left _ _
  have hdrop : (blk ++ tail).drop (bytewidth n + 1) = tail := by
    rw [← hblk]; exact List.drop_left _ _
  have h3 := @decodeLoop_step fuel td n (blk ++ tail) pfx d h1
    (by rw [htake]; exact hpfx) (by rw [htake, hdrop]; exact hrec)
  rw [htake] at h3
  exact h3

/-- Lock-step simulation: from mirrored tables and a buffer that is either
empty or known, the encoder run succeeds, and the decoder, fed the
encoder's whole output with the mirrored table, succeeds and emits exactly
the buffered bytes followed by the remaining input. -/
theorem encode_decode_sim :
    ∀ (S : List Nat) (te : List (List Nat × Nat)) (td : List (Nat × List Nat))
      (n : Nat) (cm : List Nat),
      Mirror te td n →
      (cm = [] ∨ (dictFind te cm).isSome) →
      ∃ r : EncResult, encodeLoop S te n cm = some r ∧
        ∀ fuel, r.out.length ≤ fuel →
          ∃ d : DecResult, decodeLoop fuel td n r.out = some d ∧ d.out = cm ++ S := by
  intro S
  induction S with
  | nil =>
    intro te td n cm hM hcm
    by_cases hcme : cm = []
    · subst hcme
      exact ⟨⟨[], none, te, n⟩, encodeLoop_nil_empty te n, fun fuel _ =>
        ⟨⟨[], none, td, n⟩, decodeLoop_nil fuel td n, by simp [DecResult.out]⟩⟩
    · obtain ⟨p, hp⟩ := Option.isSome_iff_exists.mp (hcm.resolve_left hcme)
      have hpn : p < n := mirror_lt hM hp
      have htb := tobytes_some (bytewidth_mono (show p ≤ n by omega))
      refine ⟨⟨[], some (beBytes p (bytewidth n)), te, n⟩,
        encodeLoop_nil_leftover hcme hp htb, ?_⟩
      intro fuel hfuel
      have hlen : (beBytes p (bytewidth n)).length = bytewidth n := beBytes_length p _
      have hwpos : 1 ≤ bytewidth n := bytewidth_pos (by omega)
      have hout : EncResult.out ⟨[], some (beBytes p (bytewidth n)), te, n⟩ =
          beBytes p (bytewidth n) := by simp [EncResult.out]
      rw [hout] at hfuel
      obtain ⟨f, rfl⟩ : ∃ f, fuel = f + 1 := ⟨fuel - 1, by omega⟩
      have hfb : frombytes (beBytes p (bytewidth n)) = p :=
        frombytes_beBytes_of_lt (by have := lt_pow_bytewidth n; omega)
      refine ⟨⟨[], some cm, td, n⟩, ?_, by simp [DecResult.out]⟩
      rw [hout]
      apply decodeLoop_trailing
      · intro hnil; rw [hnil] at hlen; simp at hlen; omega
      · rw [hlen]; omega
      · rw [hfb]; exact (hM.1 cm p).mp hp
  | cons b rest ih =>
    intro te td n cm hM hcm
    cases hfind : dictFind te (cm ++ [b]) with
    | some j =>
      obtain ⟨r, hr, hdec⟩ := ih te td n (cm ++ [b]) hM (Or.inr (by rw [hfind]; rfl))
      refine ⟨r, by rw [encodeLoop_cons_known rest hfind]; exact hr, ?_⟩
      intro fuel hfuel
      obtain ⟨d, hd, hout⟩ := hdec fuel hfuel
      exact ⟨d, hd, by rw [hout]; simp⟩
    | none =>
      have hM' := mirror_insert hM hfind
      obtain ⟨r', hr', hdec'⟩ :=
        ih ((cm ++ [b], n) :: te) ((n, cm ++ [b]) :: td) (n + 1) [] hM' (Or.inl rfl)
      have hptr : ∃ pointer,
          (if cm = [] then some n else dictFind ((cm ++ [b], n) :: te) cm) = some pointer ∧
          pointer ≤ n ∧
          (if pointer = n then some [] else dictFind td pointer) = some cm := by
        by_cases hcme : cm = []
        · subst hcme
          exact ⟨n, by rw [if_pos rfl], le_rfl, by rw [if_pos rfl]⟩
        · have hne2 : cm ++ [b] ≠ cm := fun h => by simpa using congrArg List.length h
          have hdf : dictFind ((cm ++ [b], n) :: te) cm = dictFind te cm := by
            rw [dictFind_cons, if_neg hne2]
          obtain ⟨p, hp⟩ := Option.isSome_iff_exists.mp (hcm.resolve_left hcme)
          have hpn : p < n := mirror_lt hM hp
          exact ⟨p, by rw [if_neg hcme, hdf]; exact hp, by omega,
            by rw [if_neg (by omega)]; exact (hM.1 cm p).mp hp⟩
      obtain ⟨pointer, hptr, hple, hback⟩ := hptr
      have htb : tobytes pointer (some (bytewidth n)) =
          some (beBytes pointer (bytewidth n)) := tobytes_some (bytewidth_mono hple)
      have henc := encodeLoop_cons_new hfind hptr htb hr'
      refine ⟨⟨(beBytes pointer (bytewidth n) ++ [b]) :: r'.blocks, r'.trailing,
        r'.table, r'.nextid⟩, henc, ?_⟩
      intro fuel hfuel
      have hout : EncResult.out ⟨(beBytes pointer (bytewidth n) ++ [b]) :: r'.blocks,
          r'.trailing, r'.table, r'.nextid⟩ =
          (beBytes pointer (bytewidth n) ++ [b]) ++ EncResult.out r' := by
        simp [EncResult.out]
      rw [hout] at hfuel ⊢
      have hlen1 : ((beBytes pointer (bytewidth n) ++ [b]) : List Nat).length =
          bytewidth n + 1 := by
        rw [List.length_append, beBytes_length]; rfl
      have hfge : bytewidth n + 1 + (EncResult.out r').length ≤ fuel := by
        rw [List.length_append, hlen1] at hfuel; exact hfuel
      obtain ⟨f, rfl⟩ : ∃ f, fuel = f + 1 := ⟨fuel - 1, by omega⟩
      obtain ⟨d', hd', hdout⟩ := hdec' f (by omega)
      have hdl : (beBytes pointer (bytewidth n) ++ [b]).dropLast =
          beBytes pointer (bytewidth n) := List.dropLast_concat
      have hgl : (beBytes pointer (bytewidth n) ++ [b]).getLastD 0 = b :=
        List.getLastD_concat _ _ _
      have hfb : frombytes (beBytes pointer (bytewidth n)) = pointer :=
        frombytes_beBytes_of_lt (by have := lt_pow_bytewidth n; omega)
      have hstep := @decodeLoop_block f td n cm d'
        (beBytes pointer (bytewidth n) ++ [b]) (EncResult.out r') hlen1
        (by rw [hdl, hfb]; exact hback)
        (by rw [hgl]; exact hd')
      rw [hgl] at hstep
      refine ⟨⟨(cm ++ [b]) :: d'.chunks, d'.trailing, d'.table, d'.nextid⟩, hstep, ?_⟩
      have : DecResult.out ⟨(cm ++ [b]) :: d'.chunks, d'.trailing, d'.table, d'.nextid⟩ =
          (cm ++ [b]) ++ DecResult.out d' := by simp [DecResult.out]
      rw [this, hdout]
      simp

/-- The empty tables are mirrored at counter 0. -/
theorem mirror_init : Mirror [] [] 0 :=
  ⟨fun c i => by simp [dictFind], fun i => by simp [dictFind]⟩

/-- A key that dictFind misses is not among the stored keys. -/
theorem dictFind_none_not_mem {α β : Type} [DecidableEq α] {t : List (α × β)} {key : α}
    (h : dictFind t key = none) : key ∉ t.map Prod.fst := by
  induction t with
  | nil => simp
  | cons kv t ih =>
    obtain ⟨k, v⟩ := kv
    rw [dictFind_cons] at h
    by_cases hk : k = key
    · rw [if_pos hk] at h
      exact absurd h (by simp)
    · rw [if_neg hk] at h
      intro hmem
      rcases List.mem_cons.mp hmem with heq | hm
      · exact hk heq.symm
      · exact ih h hm

/-- Bookkeeping facts about a full encoder run: ids count up one per block
from the starting counter, the table records exactly the assigned ids in
discovery order with distinct chunks, the j-th block emitted is
bytewidth(start + j) + 1 bytes, and a trailing block is bytewidth(final
counter) bytes. -/
theorem encodeLoop_meta :
    ∀ (S : List Nat) (te : List (List Nat × Nat)) (n : Nat) (cm : List Nat),
      (∀ (c : List Nat) (i : Nat), dictFind te c = some i → i < n) →
      te.map Prod.snd = (List.range n).reverse →
      (te.map Prod.fst).Nodup →
      (cm = [] ∨ (dictFind te cm).isSome) →
      ∀ r, encodeLoop S te n cm = some r →
        r.nextid = n + r.blocks.length ∧
        r.table.map Prod.snd = (List.range r.nextid).reverse ∧
        (r.table.map Prod.fst).Nodup ∧
        (∀ j (hj : j < r.blocks.length),
          (r.blocks.get ⟨j, hj⟩).length = bytewidth (n + j) + 1) ∧
        (∀ tb, r.trailing = some tb → tb.length = bytewidth r.nextid) := by
  intro S
  induction S with
  | nil =>
    intro te n cm hk hids hnd hcm r hr
    by_cases hcme : cm = []
    · subst hcme
      rw [encodeLoop_nil_empty] at hr
      obtain rfl : (⟨[], none, te, n⟩ : EncResult) = r := by injection hr
      refine ⟨by simp, by simpa using hids, by simpa using hnd, ?_, ?_⟩
      · intro j hj; simp at hj
      · intro tb htb; simp at htb
    · obtain ⟨p, hp⟩ := Option.isSome_iff_exists.mp (hcm.resolve_left hcme)
      have hpn : p < n := hk cm p hp
      have htb := tobytes_some (bytewidth_mono (show p ≤ n by omega))
      rw [encodeLoop_nil_leftover hcme hp htb] at hr
      obtain rfl : (⟨[], some (beBytes p (bytewidth n)), te, n⟩ : EncResult) = r := by
        injection hr
      refine ⟨by simp, by simpa using hids, by simpa using hnd, ?_, ?_⟩
      · intro j hj; simp at hj
      · intro tb htb2
        obtain rfl : beBytes p (bytewidth n) = tb := by injection htb2
        exact beBytes_length p _
  | cons b rest ih =>
    intro te n cm hk hids hnd hcm r hr
    cases hfind : dictFind te (cm ++ [b]) with
    | some j =>
      rw [encodeLoop_cons_known rest hfind] at hr
      exact ih te n (cm ++ [b]) hk hids hnd (Or.inr (by rw [hfind]; rfl)) r hr
    | none =>
      have hptr : ∃ pointer,
          (if cm = [] then some n else dictFind ((cm ++ [b], n) :: te) cm) = some pointer ∧
          pointer ≤ n := by
        by_cases hcme : cm = []
        · subst hcme
          exact ⟨n, by rw [if_pos rfl], le_rfl⟩
        · have hne2 : cm ++ [b] ≠ cm := fun h => by simpa using congrArg List.length h
          have hdf : dictFind ((cm ++ [b], n) :: te) cm = dictFind te cm := by
            rw [dictFind_cons, if_neg hne2]
          obtain ⟨p, hp⟩ := Option.isSome_iff_exists.mp (hcm.resolve_left hcme)
          have hpn : p < n := hk cm p hp
          exact ⟨p, by rw [if_neg hcme, hdf]; exact hp, by omega⟩
      obtain ⟨pointer, hptr, hple⟩ := hptr
      have htb : tobytes pointer (some (bytewidth n)) =
          some (beBytes pointer (bytewidth n)) := tobytes_some (bytewidth_mono hple)
      have hk' : ∀ (c : List Nat) (i : Nat),
          dictFind ((cm ++ [b], n) :: te) c = some i → i < n + 1 := by
        intro c i hc
        rw [dictFind_cons] at hc
        by_cases hcc : cm ++ [b] = c
        · rw [if_pos hcc] at hc
          obtain rfl : n = i := by injection hc
          omega
        · rw [if_neg hcc] at hc
          have := hk c i hc
          omega
      have hids' : ((cm ++ [b], n) :: te).map Prod.snd = (List.range (n + 1)).reverse := by
        simp [List.range_succ, hids]
      have hnd' : (((cm ++ [b], n) :: te).map Prod.fst).Nodup := by
        simp only [List.map_cons]
        exact List.nodup_cons.mpr ⟨dictFind_none_not_mem hfind, hnd⟩
      cases hrec : encodeLoop rest ((cm ++ [b], n) :: te) (n + 1) [] with
      | none =>
        rw [encodeLoop, hfind] at hr
        simp only [List.dropLast_concat, List.getLastD_concat, hptr, htb, hrec] at hr
        exact Option.noConfusion hr
      | some r' =>
        rw [encodeLoop_cons_new hfind hptr htb hrec] at hr
        obtain rfl : (⟨(beBytes pointer (bytewidth n) ++ [b]) :: r'.blocks, r'.trailing,
            r'.table, r'.nextid⟩ : EncResult) = r := by injection hr
        obtain ⟨hnext, htab, hndr, hblocks, htrail⟩ :=
          ih ((cm ++ [b], n) :: te) (n + 1) [] hk' hids' hnd' (Or.inl rfl) r' hrec
        refine ⟨by simp [hnext]; omega, htab, hndr, ?_, htrail⟩
        intro j hj
        cases j with
        | zero =>
          show ((beBytes pointer (bytewidth n) ++ [b]).length = bytewidth (n + 0) + 1)
          rw [List.length_append, beBytes_length]
          rfl
        | succ j' =>
          have hj' : j' < r'.blocks.length := by simpa using hj
          have := hblocks j' hj'
          show (r'.blocks.get ⟨j', _⟩).length = bytewidth (n + (j' + 1)) + 1
          rw [this]
          congr 2
          omega

/-- With the exact width function throughout, the codec round-trips every
stream.  This is a fact about the model only: the program evaluates the
width in floating point and realises the exact values only while block
ids stay small, so the program's round-trip fails once a run reaches
block ids near 2^56 (see the width-bug theorems below). -/
theorem roundtrip_exact_widths (S : List Nat) :
    ∃ out, encodeBytes S = some out ∧ decodeBytes out = some S := by
  obtain ⟨r, hr, hdec⟩ := encode_decode_sim S [] [] 0 [] mirror_init (Or.inl rfl)
  obtain ⟨d, hd, hout⟩ := hdec r.out.length le_rfl
  refine ⟨r.out, ?_, ?_⟩
  · rw [encodeBytes, encode, hr]
    rfl
  · rw [decodeBytes, decode, hd]
    simp [hout]

/-- C1 (width bug): on the all-97 run long enough to assign block id
2^56 + 1 to the chunk 97^(2^56 + 2), the encoder transmits the prefix
pointer 2^56 in a field that holds only zeros.  The code sizes that field
from its float width of the block id: the double of 2^56 + 2 equals the
double of 2^56 + 1 and of 2^56 (first two conjuncts), so the float
pipeline computes the width of the 2^56-range there — 7 bytes — while
the pointer needs bytewidth(2^56) = 8 (third conjunct); emitted through a
7-byte field the pointer reads back as 0 (fourth conjunct), where the
intended 8-byte field preserves it (fifth conjunct).  The decoder then
expands prefix table[0] instead of the 2^56 + 1 byte chunk, so
decode(encode(S)) differs from S at this finite input. -/
theorem float_width_truncates_repeated_run_pointer :
    roundDouble (2 ^ 56 + 2) = 2 ^ 56 ∧
    roundDouble (2 ^ 56 + 1) = 2 ^ 56 ∧
    bytewidth (2 ^ 56) = 8 ∧
    frombytes (beBytes (2 ^ 56) 7) = 0 ∧
    frombytes (beBytes (2 ^ 56) 8) = 2 ^ 56 := by
  refine ⟨by decide, by decide, by decide, by decide, by decide⟩

/-- C3 (width bug): frombytes(tobytes(n, bytewidth(n))) fails at
n = 2^56.  The code's bytewidth(2^56) is computed from the double of
2^56 + 1, which coincides with the double of 2^56 (first conjunct) —
the argument the float pipeline sees for n = 2^56 - 1 — so the code
returns the 56-bit width 7 instead of the exact bytewidth(2^56) = 8
(second and third conjuncts).  tobytes' own ValueError guard compares
against the same wrong width and therefore does not fire, where the
specified guard at the exact width refuses width 7 (fourth conjunct);
the emitted 7 bytes decode to 0, not 2^56 (fifth conjunct). -/
theorem float_width_roundtrip_failure :
    roundDouble (2 ^ 56 + 1) = roundDouble (2 ^ 56) ∧
    bytewidth (2 ^ 56 - 1) = 7 ∧
    bytewidth (2 ^ 56) = 8 ∧
    tobytes (2 ^ 56) (some 7) = none ∧
    frombytes (beBytes (2 ^ 56) 7) = 0 := by
  refine ⟨by decide, by decide, by decide, by decide, by decide⟩

/-- C8: on input b"aaaa" the encoder emits block 0 = b"a" (empty pointer
field plus new-byte), block 1 = b"\x00a" (pointer 0 in one byte plus
new-byte) and a trailing pointer-only block b"\x00" for the leftover
matched chunk "a"; the decoder fed that byte stream reproduces b"aaaa". -/
theorem concrete_aaaa :
    encode [97, 97, 97, 97] =
      some ⟨[[97], [0, 97]], some [0], [([97, 97], 1), ([97], 0)], 2⟩ ∧
    encodeBytes [97, 97, 97, 97] = some [97, 0, 97, 0] ∧
    decodeBytes [97, 0, 97, 0] = some [97, 97, 97, 97] := by
  refine ⟨rfl, rfl, rfl⟩

/-- C2 counterexample: bytewidth changes value from n = 0 to n = 1, yet
0 + 1 = 1 is not of the form 2^(8k) for any k at least 1, so the width does
not change only at the claimed boundaries. -/
theorem bytewidth_boundary_counterexample :
    ¬ ((bytewidth 0 ≠ bytewidth 1) → ∃ k, 1 ≤ k ∧ (1 : Nat) = 2 ^ (8 * k)) := by
  intro h
  obtain ⟨k, hk, he⟩ := h (by decide)
  have h2 : (2 : Nat) ^ (8 * 1) ≤ 2 ^ (8 * k) :=
    Nat.pow_le_pow_right (by norm_num) (by omega)
  have h3 : (2 : Nat) ^ (8 * 1) = 256 := by norm_num
  omega

/-- C2 (amended): the intended width function — ceil(ceil(log2(n + 1)) / 8)
over exact integers, which the code's assert suite pins at small values
but whose float evaluation the code only realises while n is small —
takes the stated concrete values, is non-decreasing, and changes value
from n to n + 1 exactly when n + 1 = 2^(8k) for some k at least 0 (the
claim said k at least 1, which misses the initial change at n = 0 to
n = 1 where n + 1 = 2^0).  The code's float computation departs from this
function by the k = 7 boundary: the doubles of 2^56 and 2^56 + 1 coincide
(conjuncts after the characterisation), so the code — whose width is a
function of that double — computes equal widths for n = 2^56 - 1 and
n = 2^56, while the exact width changes there from 7 to 8 (last two
conjuncts). -/
theorem bytewidth_spec_amended :
    (∀ n, bytewidth n = (Nat.clog 2 (n + 1) + 7) / 8) ∧
    bytewidth 0 = 0 ∧ bytewidth 1 = 1 ∧ bytewidth 255 = 1 ∧ bytewidth 256 = 2 ∧
    bytewidth 65535 = 2 ∧ bytewidth 65536 = 3 ∧
    (∀ m n, m ≤ n → bytewidth m ≤ bytewidth n) ∧
    (∀ n, bytewidth n ≠ bytewidth (n + 1) ↔ ∃ k, n + 1 = 2 ^ (8 * k)) ∧
    roundDouble (2 ^ 56) = 2 ^ 56 ∧
    roundDouble (2 ^ 56 + 1) = 2 ^ 56 ∧
    bytewidth (2 ^ 56 - 1) = 7 ∧
    bytewidth (2 ^ 56) = 8 := by
  refine ⟨fun n => by rw [bytewidth, bitwidth_eq_clog], by decide, by decide, by decide,
    by decide, by decide, by decide, fun m n h => bytewidth_mono h, fun n => ?_,
    by decide, by decide, by decide, by decide⟩
  constructor
  · intro hne
    have h1 : n + 1 ≤ 2 ^ (8 * bytewidth n) := (bytewidth_le_iff n _).mp le_rfl
    have h2 : ¬ (bytewidth (n + 1) ≤ bytewidth n) := fun hle =>
      hne (le_antisymm (bytewidth_mono (by omega)) hle)
    have h3 : ¬ (n + 1 + 1 ≤ 2 ^ (8 * bytewidth n)) := fun hle =>
      h2 ((bytewidth_le_iff (n + 1) _).mpr hle)
    exact ⟨bytewidth n, by omega⟩
  · rintro ⟨k, hk⟩ heq
    have h1 : bytewidth n ≤ k := (bytewidth_le_iff n k).mpr (by omega)
    have h2 : bytewidth (n + 1) ≤ k := heq ▸ h1
    have := (bytewidth_le_iff (n + 1) k).mp h2
    omega

/-- Witness for C2 (amended) at concrete inputs: monotonicity at 3 and 300,
and the boundary characterisation at n = 255 and at n = 0. -/
theorem bytewidth_spec_amended_witness :
    bytewidth 3 ≤ bytewidth 300 ∧
    (bytewidth 255 ≠ bytewidth 256 ↔ ∃ k, (256 : Nat) = 2 ^ (8 * k)) ∧
    (bytewidth 0 ≠ bytewidth 1 ↔ ∃ k, (1 : Nat) = 2 ^ (8 * k)) :=
  ⟨bytewidth_spec_amended.2.2.2.2.2.2.2.1 3 300 (by decide),
    bytewidth_spec_amended.2.2.2.2.2.2.2.2.1 255,
    bytewidth_spec_amended.2.2.2.2.2.2.2.2.1 0⟩

/-- In the model, which uses the exact width function, the j-th full block
is exactly bytewidth(j) + 1 bytes (pointer field of bytewidth(j) bytes
plus one new-byte) and a trailing block is bytewidth(block count) bytes.
The program computes these widths in floating point, so it realises this
shape only while block ids stay small; see the C4 width-bug theorem. -/
theorem block_shape_exact_widths (S : List Nat) (r : EncResult) (h : encode S = some r) :
    (∀ j (hj : j < r.blocks.length),
      (r.blocks.get ⟨j, hj⟩).length = bytewidth j + 1 ∧
      (r.blocks.get ⟨j, hj⟩).dropLast.length = bytewidth j) ∧
    (∀ tb, r.trailing = some tb → tb.length = bytewidth r.blocks.length) := by
  obtain ⟨hnext, htab, hnd, hblocks, htrail⟩ :=
    encodeLoop_meta S [] 0 [] (fun c i hc => by simp [dictFind] at hc) (by simp)
      (by simp) (Or.inl rfl) r h
  constructor
  · intro j hj
    have h1 := hblocks j hj
    rw [Nat.zero_add] at h1
    refine ⟨h1, ?_⟩
    rw [List.length_dropLast, h1]
    omega
  · intro tb htb
    have := htrail tb htb
    rw [this, hnext, Nat.zero_add]

/-- C4 (width bug): the claim sizes block n at exactly bytewidth(n) + 1
bytes with the exact width.  The code derives the field width of block id
2^56 from the double of 2^56 + 1, which coincides with the double of
2^56 — the argument seen for block id 2^56 - 1 (first conjunct) — so the
code gives blocks 2^56 - 1 and 2^56 pointer fields of the same width,
while the exact widths are 7 and 8 (second and third conjuncts): the code
emits block 2^56 as an 8-byte block where the claim requires
bytewidth(2^56) + 1 = 9 bytes. -/
theorem float_width_block_size_departure :
    roundDouble (2 ^ 56 + 1) = roundDouble (2 ^ 56) ∧
    bytewidth (2 ^ 56 - 1) = 7 ∧
    bytewidth (2 ^ 56) = 8 := by
  refine ⟨by decide, by decide, by decide⟩

/-- C6: the block ids assigned while encoding any input form the strictly
increasing sequence 0, 1, 2, ... with no gaps and no reuse, one id per
distinct chunk in discovery order, and the encode-direction table gains
exactly one entry per assigned id: the final table's ids, newest first,
are exactly the reversal of range(number of blocks), and its chunk keys
are pairwise distinct. -/
theorem encoder_id_sequence (S : List Nat) (r : EncResult) (h : encode S = some r) :
    r.nextid = r.blocks.length ∧
    r.table.map Prod.snd = (List.range r.blocks.length).reverse ∧
    (r.table.map Prod.fst).Nodup := by
  obtain ⟨hnext, htab, hnd, _, _⟩ :=
    encodeLoop_meta S [] 0 [] (fun c i hc => by simp [dictFind] at hc) (by simp)
      (by simp) (Or.inl rfl) r h
  rw [Nat.zero_add] at hnext
  exact ⟨hnext, hnext ▸ htab, hnd⟩

/-- Witness for C6 on the b"aaaa" run: the final table ids, newest first,
are [1, 0] = reverse (range 2), and the chunk keys are distinct. -/
theorem encoder_id_sequence_witness :
    ([([97, 97], 1), ([97], 0)].map Prod.snd = (List.range 2).reverse) ∧
    (([([97, 97], 1), ([97], 0)].map Prod.fst).Nodup) := by
  have h := encoder_id_sequence [97, 97, 97, 97]
    ⟨[[97], [0, 97]], some [0], [([97, 97], 1), ([97], 0)], 2⟩ rfl
  exact ⟨h.2.1, h.2.2⟩

/-- A full block whose pointer is neither the current id nor a stored id
makes the decoder fail. -/
theorem decodeLoop_unknown_full {fuel : Nat} {td : List (Nat × List Nat)} {n : Nat}
    {input : List Nat} (hlen : bytewidth n + 1 ≤ input.length)
    (hne : frombytes ((input.take (bytewidth n + 1)).dropLast) ≠ n)
    (hfind : dictFind td (frombytes ((input.take (bytewidth n + 1)).dropLast)) = none) :
    decodeLoop (fuel + 1) td n input = none := by
  obtain ⟨b0, rest0, rfl⟩ := List.exists_cons_of_ne_nil
    (show input ≠ [] by intro h; rw [h] at hlen; simp at hlen)
  simp only [decodeLoop, if_neg (Nat.not_lt.mpr hlen), if_neg hne, hfind]

/-- A trailing pointer-only block whose pointer is not a stored id makes
the decoder fail. -/
theorem decodeLoop_unknown_trailing {fuel : Nat} {td : List (Nat × List Nat)} {n : Nat}
    {input : List Nat} (hne : input ≠ []) (hlen : input.length < bytewidth n + 1)
    (hfind : dictFind td (frombytes input) = none) :
    decodeLoop (fuel + 1) td n input = none := by
  obtain ⟨b0, rest0, rfl⟩ := List.exists_cons_of_ne_nil hne
  simp only [decodeLoop, if_pos hlen, hfind]

/-- In the model, which uses the exact width function, a full block the
encoder emits carries pointer = blockid exactly when the chunk's
known-prefix is empty, and a pointer strictly below the blockid
otherwise; dually, the decoder expands a block whose pointer equals its
own id with an empty known-prefix, sending only the new-byte.  The
decoder half is width-independent and true of the program; the encoder
half relies on the pointer surviving its field (pointer below
2^(8 width)), which the program's float widths violate at block ids near
2^56 — see the C5 width-bug theorem. -/
theorem sentinel_exact_widths :
    (∀ (te : List (List Nat × Nat)) (n : Nat) (cm : List Nat) (b : Nat)
        (rest : List Nat) (r : EncResult),
      (∀ (c : List Nat) (i : Nat), dictFind te c = some i → i < n) →
      dictFind te (cm ++ [b]) = none →
      (cm = [] ∨ (dictFind te cm).isSome) →
      encodeLoop (b :: rest) te n cm = some r →
      ∃ blk blks, r.blocks = blk :: blks ∧
        (cm = [] → frombytes blk.dropLast = n) ∧
        (cm ≠ [] → frombytes blk.dropLast < n)) ∧
    (∀ (fuel : Nat) (td : List (Nat × List Nat)) (n : Nat) (input : List Nat)
        (d : DecResult),
      bytewidth n + 1 ≤ input.length →
      frombytes ((input.take (bytewidth n + 1)).dropLast) = n →
      decodeLoop (fuel + 1) td n input = some d →
      ∃ chunks, d.chunks = [(input.take (bytewidth n + 1)).getLastD 0] :: chunks) := by
  constructor
  · intro te n cm b rest r hk hfind hcm hr
    have hptr : ∃ pointer,
        (if cm = [] then some n else dictFind ((cm ++ [b], n) :: te) cm) = some pointer ∧
        (cm = [] → pointer = n) ∧ (cm ≠ [] → pointer < n) ∧ pointer ≤ n := by
      by_cases hcme : cm = []
      · exact ⟨n, by rw [if_pos hcme], fun _ => rfl, fun h => absurd hcme h, le_rfl⟩
      · have hne2 : cm ++ [b] ≠ cm := fun h => by simpa using congrArg List.length h
        have hdf : dictFind ((cm ++ [b], n) :: te) cm = dictFind te cm := by
          rw [dictFind_cons, if_neg hne2]
        obtain ⟨p, hp⟩ := Option.isSome_iff_exists.mp (hcm.resolve_left hcme)
        have hpn : p < n := hk cm p hp
        exact ⟨p, by rw [if_neg hcme, hdf]; exact hp, fun h => absurd h hcme,
          fun _ => hpn, by omega⟩
    obtain ⟨pointer, hptr, hpeq, hplt, hple⟩ := hptr
    have htb : tobytes pointer (some (bytewidth n)) =
        some (beBytes pointer (bytewidth n)) := tobytes_some (bytewidth_mono hple)
    have hfb : frombytes (beBytes pointer (bytewidth n)) = pointer :=
      frombytes_beBytes_of_lt (by have := lt_pow_bytewidth n; omega)
    cases hrec : encodeLoop rest ((cm ++ [b], n) :: te) (n + 1) [] with
    | none =>
      rw [encodeLoop, hfind] at hr
      simp only [List.dropLast_concat, List.getLastD_concat, hptr, htb, hrec] at hr
      exact Option.noConfusion hr
    | some r' =>
      rw [encodeLoop_cons_new hfind hptr htb hrec] at hr
      obtain rfl : (⟨(beBytes pointer (bytewidth n) ++ [b]) :: r'.blocks, r'.trailing,
          r'.table, r'.nextid⟩ : EncResult) = r := by injection hr
      refine ⟨beBytes pointer (bytewidth n) ++ [b], r'.blocks, rfl, ?_, ?_⟩
      · intro hcme
        rw [List.dropLast_concat, hfb]
        exact hpeq hcme
      · intro hcme
        rw [List.dropLast_concat, hfb]
        exact hplt hcme
  · intro fuel td n input d hlen hptr hd
    obtain ⟨b0, rest0, rfl⟩ := List.exists_cons_of_ne_nil
      (show input ≠ [] by intro h; rw [h] at hlen; simp at hlen)
    simp only [decodeLoop, if_neg (Nat.not_lt.mpr hlen), if_pos hptr] at hd
    cases hrec : decodeLoop fuel
        ((n, [] ++ [((b0 :: rest0).take (bytewidth n + 1)).getLastD 0]) :: td) (n + 1)
        ((b0 :: rest0).drop (bytewidth n + 1)) with
    | none =>
      rw [hrec] at hd
      exact Option.noConfusion hd
    | some r2 =>
      rw [hrec] at hd
      obtain rfl : (⟨([] ++ [((b0 :: rest0).take (bytewidth n + 1)).getLastD 0]) :: r2.chunks,
          r2.trailing, r2.table, r2.nextid⟩ : DecResult) = d := by injection hd
      exact ⟨r2.chunks, by simp⟩

/-- C5 (width bug): the claim says the transmitted pointer equals the
block id exactly when the prefix is empty.  A fresh single byte first
seen after 2^56 blocks gets the sentinel pointer 2^56 at block id 2^56,
but the code sizes the field from its float width there: the double of
2^56 + 1 equals the double of 2^56 (first conjunct), so the code uses
the 56-bit width 7 instead of the exact bytewidth(2^56) = 8 (second
conjunct), and the emitted 7-byte field reads back as 0 (third conjunct)
— byte-identical to a legitimate back-reference to block 0 (fourth
conjunct), not equal to the block's own id.  The transmitted sentinel is
therefore not the block id and collides with a smaller id. -/
theorem float_width_sentinel_collision :
    roundDouble (2 ^ 56 + 1) = 2 ^ 56 ∧
    bytewidth (2 ^ 56) = 8 ∧
    frombytes (beBytes (2 ^ 56) 7) = 0 ∧
    beBytes (2 ^ 56) 7 = beBytes 0 7 := by
  refine ⟨by decide, by decide, by decide, by decide⟩

/-- C7: whenever the decoder reads a pointer that is neither the current
block id nor an id stored in its table, it fails (UnknownReferenceError,
modelled as none) instead of succeeding; the same holds for the trailing
pointer-only block, and in particular for any pointer strictly greater
than the current id when the table holds only smaller ids. -/
theorem unknown_reference_fails :
    (∀ (fuel : Nat) (td : List (Nat × List Nat)) (n : Nat) (input : List Nat),
      bytewidth n + 1 ≤ input.length →
      frombytes ((input.take (bytewidth n + 1)).dropLast) ≠ n →
      dictFind td (frombytes ((input.take (bytewidth n + 1)).dropLast)) = none →
      decodeLoop (fuel + 1) td n input = none) ∧
    (∀ (fuel : Nat) (td : List (Nat × List Nat)) (n : Nat) (input : List Nat),
      input ≠ [] → input.length < bytewidth n + 1 →
      dictFind td (frombytes input) = none →
      decodeLoop (fuel + 1) td n input = none) ∧
    (∀ (fuel : Nat) (td : List (Nat × List Nat)) (n : Nat) (input : List Nat),
      (∀ i : Nat, (dictFind td i).isSome → i < n) →
      bytewidth n + 1 ≤ input.length →
      n < frombytes ((input.take (bytewidth n + 1)).dropLast) →
      decodeLoop (fuel + 1) td n input = none) := by
  refine ⟨fun fuel td n input hlen hne hfind =>
      decodeLoop_unknown_full hlen hne hfind,
    fun fuel td n input hne hlen hfind =>
      decodeLoop_unknown_trailing hne hlen hfind,
    fun fuel td n input hbound hlen hgt => ?_⟩
  have hne : frombytes ((input.take (bytewidth n + 1)).dropLast) ≠ n := by omega
  have hfind : dictFind td (frombytes ((input.take (bytewidth n + 1)).dropLast)) = none := by
    cases hf : dictFind td (frombytes ((input.take (bytewidth n + 1)).dropLast)) with
    | none => rfl
    | some c =>
      have := hbound _ (by rw [hf]; rfl)
      omega
  exact decodeLoop_unknown_full hlen hne hfind

/-- Witness for C7: at block id 1 with only id 0 stored, a block carrying
pointer 9 fails; a trailing pointer 7 with an empty table fails; a block
carrying pointer 5 > 1 fails under the id bound. -/
theorem unknown_reference_fails_witness :
    decodeLoop 6 [(0, [97])] 1 [9, 8] = none ∧
    decodeLoop 4 [(0, [97])] 1 [7] = none ∧
    decodeLoop 3 [(0, [97])] 1 [5, 8] = none := by
  refine ⟨?_, ?_, ?_⟩
  · exact unknown_reference_fails.1 5 [(0, [97])] 1 [9, 8] (by decide) (by decide)
      (by decide)
  · exact unknown_reference_fails.2.1 3 [(0, [97])] 1 [7] (by decide) (by decide)
      (by decide)
  · exact unknown_reference_fails.2.2 2 [(0, [97])] 1 [5, 8]
      (fun i h => by
        rw [dictFind_cons] at h
        by_cases h0 : (0 : Nat) = i
        · omega
        · rw [if_neg h0] at h
          simp [dictFind] at h)
      (by decide) (by decide)

/-- C9: closing the cr.trickle adapter after it forwarded elements 0..i of
its current chunk but not the rest raises UnsentError carrying exactly the
unsent remainder seq[i + 1:]; after a run whose last chunk was fully
forwarded, closing raises no error. -/
theorem trickle_unsent (s : List Nat) (i : Nat) (chunks : List (List Nat)) :
    (i + 1 < s.length →
      trickleClose (some s) (some i) = CloseOutcome.unsent (s.drop (i + 1)) ∧
      (s.drop (i + 1)).length = s.length - (i + 1)) ∧
    (s ≠ [] →
      trickleClose (trickleRunState (chunks ++ [s])).1
        (trickleRunState (chunks ++ [s])).2 = CloseOutcome.clean) := by
  constructor
  · intro h
    have hlen : (s.drop (i + 1)).length = s.length - (i + 1) := List.length_drop _ _
    have hne : s.drop (i + 1) ≠ [] := by
      intro h0
      rw [h0] at hlen
      simp at hlen
      omega
    exact ⟨by simp [trickleClose, hne], hlen⟩
  · intro hs
    have hrun : trickleRunState (chunks ++ [s]) = (some s, some (s.length - 1)) := by
      rw [trickleRunState, List.foldl_append]
      simp [trickleReceive, hs]
    rw [hrun]
    have hdrop : s.drop (s.length - 1 + 1) = [] := by
      apply List.drop_eq_nil_of_le
      have : s.length ≠ 0 := fun h0 => hs (List.length_eq_zero.mp h0)
      omega
    simp [trickleClose, hdrop]

/-- Witness for C9: closing mid-chunk after forwarding element 0 of
[1, 2, 3] raises UnsentError([2, 3]); closing after fully forwarding [5]
is clean. -/
theorem trickle_unsent_witness :
    trickleClose (some [1, 2, 3]) (some 0) = CloseOutcome.unsent [2, 3] ∧
    trickleClose (trickleRunState ([] ++ [[5]])).1
      (trickleRunState ([] ++ [[5]])).2 = CloseOutcome.clean :=
  ⟨((trickle_unsent [1, 2, 3] 0 []).1 (by decide)).1,
    (trickle_unsent [5] 0 []).2 (by decide)⟩

/-- C10: closing the cr.trickle adapter before any chunk was received runs
the finally clause with seq and i unbound, so close fails with NameError
(UnboundLocalError); since nameError is a constructor distinct from clean
and unsent, the close neither completes cleanly nor raises UnsentError. -/
theorem trickle_close_unbound :
    trickleClose (trickleRunState []).1 (trickleRunState []).2 =
      CloseOutcome.nameError := rfl

end PyLZ
